import Mathlib

/-!
Verification of the exclusion-list evaluator (src/exclude.go).

The embedding models Go strings as lists of Unicode scalar values
(List Char); this agrees with the byte-level Go code on all inputs that
are valid UTF-8 (all inputs appearing in the claims are ASCII).
The path separator is the Unix separator, a forward slash.

The functions in namespace GoFilepath are translated from the Go
standard library package path/filepath (as shipped by current Go
releases, whose Match reports ErrBadPattern by scanning the chunk even
after the match has failed), which src/exclude.go delegates to for all
pattern validation, canonicalization and matching: Match (with its
helpers scanChunk, matchChunk, getEsc), Clean, Join, IsAbs and Abs.
Errors of Match (ErrBadPattern) are modelled as Except.error ().

The recursive helpers of Match consume their chunk argument through
getEsc, which is not structural recursion; to keep every definition
computable by the kernel they take an explicit fuel argument, and the
public wrappers supply fuel strictly larger than the chunk length,
which is proved sufficient (each recursive call shortens the chunk, see
the fuel-irrelevance lemmas below), so the fuel-exhaustion branch is
unreachable from the wrappers.
-/

namespace GoFilepath

/-- Translation of getEsc from path/filepath/match.go: read a possibly
escaped character out of a character-class body. Errors when the class
body is exhausted, starts with a dash or a closing bracket, or ends
right after the read character (the class is then unterminated). -/
def getEsc (chunk : List Char) : Except Unit (Char × List Char) :=
  match chunk with
  | [] => .error ()
  | c :: rest =>
    if c = '-' ∨ c = ']' then .error ()
    else if c = '\\' then
      match rest with
      | [] => .error ()
      | r :: rest' => if rest' = [] then .error () else .ok (r, rest')
    else
      if rest = [] then .error () else .ok (c, rest)

theorem getEsc_ok_length {chunk : List Char} {c : Char} {rest : List Char}
    (h : getEsc chunk = .ok (c, rest)) : rest.length < chunk.length := by
  unfold getEsc at h
  rcases chunk with _ | ⟨a, tl⟩
  · simp at h
  · simp only at h
    split at h
    · simp at h
    · split at h
      · rcases tl with _ | ⟨b, tl'⟩
        · simp at h
        · simp only at h
          split at h
          · simp at h
          · simp only [Except.ok.injEq, Prod.mk.injEq] at h
            obtain ⟨rfl, rfl⟩ := h
            simp [List.length]
            omega
      · split at h
        · simp at h
        · simp only [Except.ok.injEq, Prod.mk.injEq] at h
          obtain ⟨rfl, rfl⟩ := h
          simp

/-- Translation of the character-class loop inside matchChunk
(path/filepath/match.go): parse the ranges of a class body, recording in
m whether the rune r fell in any range, and in n how many ranges were
seen. The loop ends at a closing bracket once at least one range was
parsed. The fuel argument only drives the recursion; the wrapper
parseClass below supplies enough of it. -/
def parseClassF (r : Char) : Nat → List Char → Bool → Nat →
    Except Unit (Bool × List Char)
  | 0, _, _, _ => .error ()  -- fuel exhaustion, unreachable from the wrapper
  | fuel + 1, chunk, m, n =>
    if chunk.head? = some ']' ∧ 0 < n then
      .ok (m, chunk.tail)
    else
      match getEsc chunk with
      | .error _ => .error ()
      | .ok (lo, c1) =>
        if c1.head? = some '-' then
          match getEsc c1.tail with
          | .error _ => .error ()
          | .ok (hi, c2) => parseClassF r fuel c2 (m || decide (lo ≤ r ∧ r ≤ hi)) (n + 1)
        else
          parseClassF r fuel c1 (m || decide (lo ≤ r ∧ r ≤ lo)) (n + 1)

/-- Wrapper for parseClassF with sufficient fuel. -/
def parseClass (r : Char) (chunk : List Char) (m : Bool) (n : Nat) :
    Except Unit (Bool × List Char) :=
  parseClassF r (chunk.length + 1) chunk m n

theorem parseClassF_ok_length {r : Char} :
    ∀ (fuel : Nat) (chunk : List Char) (m : Bool) (n : Nat) (b : Bool) (t : List Char),
      parseClassF r fuel chunk m n = .ok (b, t) → t.length < chunk.length := by
  intro fuel
  induction fuel with
  | zero => intro chunk m n b t h; simp [parseClassF] at h
  | succ f ih =>
    intro chunk m n b t h
    rw [parseClassF] at h
    split at h
    · rename_i hcond
      obtain ⟨rfl, rfl⟩ : m = b ∧ chunk.tail = t := by simpa using h
      obtain ⟨hh, -⟩ := hcond
      cases chunk with
      | nil => simp at hh
      | cons a tl => simp
    · split at h
      · simp at h
      · rename_i lo c1 h1
        split at h
        · split at h
          · simp at h
          · rename_i hdash hi c2 h3
            have hl1 := getEsc_ok_length h1
            have hl3 := getEsc_ok_length h3
            have htl : c1.tail.length ≤ c1.length := by cases c1 <;> simp
            have := ih c2 _ _ _ _ h
            omega
        · have hl1 := getEsc_ok_length h1
          have := ih c1 _ _ _ _ h
          omega

theorem parseClassF_fuel {r : Char} :
    ∀ (fuel fuel' : Nat) (chunk : List Char) (m : Bool) (n : Nat),
      chunk.length < fuel → chunk.length < fuel' →
      parseClassF r fuel chunk m n = parseClassF r fuel' chunk m n := by
  intro fuel
  induction fuel with
  | zero => intro fuel' chunk m n h; omega
  | succ f ih =>
    intro fuel' chunk m n h h'
    cases fuel' with
    | zero => omega
    | succ f' =>
      rw [parseClassF, parseClassF]
      split
      · rfl
      · split
        · rfl
        · rename_i lo c1 h1
          have hl1 := getEsc_ok_length h1
          split
          · split
            · rfl
            · rename_i hdash hi c2 h3
              have hl3 := getEsc_ok_length h3
              have htl : c1.tail.length ≤ c1.length := by cases c1 <;> simp
              exact ih f' c2 _ _ (by omega) (by omega)
          · exact ih f' c1 _ _ (by omega) (by omega)

theorem parseClassF_eq_parseClass {r : Char} {fuel : Nat} {chunk : List Char}
    {m : Bool} {n : Nat} (h : chunk.length < fuel) :
    parseClassF r fuel chunk m n = parseClass r chunk m n :=
  parseClassF_fuel fuel (chunk.length + 1) chunk m n h (by omega)

theorem parseClass_ok_length {r : Char} {chunk : List Char} {m : Bool} {n : Nat}
    {b : Bool} {t : List Char} (h : parseClass r chunk m n = .ok (b, t)) :
    t.length < chunk.length :=
  parseClassF_ok_length _ chunk m n b t h

/-- Helper for the character-class case of matchChunk: whether the
class is negated, which Go detects by a leading caret. -/
def classNegated (ch : List Char) : Bool := decide (ch.head? = some '^')

/-- Helper for the character-class case of matchChunk: the class body
after a possible leading caret. -/
def classBody (ch : List Char) : List Char :=
  if ch.head? = some '^' then ch.tail else ch

theorem classBody_length (ch : List Char) : (classBody ch).length ≤ ch.length := by
  unfold classBody
  split
  · cases ch <;> simp
  · exact le_refl _

/-- Translation of matchChunk from path/filepath/match.go: match the
beginning of the string s against chunk, a section of the pattern free
of unbracketed stars. The failed flag records that the match has
already failed; the loop then keeps scanning the chunk to detect a
malformed pattern without consuming s. On success the unmatched rest of
s is returned together with true; a detected bad pattern is an error.
The fuel argument only drives the recursion; the wrapper matchChunk
below supplies enough of it. -/
def matchChunkF : Nat → List Char → List Char → Bool →
    Except Unit (List Char × Bool)
  | 0, _, _, _ => .error ()  -- fuel exhaustion, unreachable from the wrapper
  | fuel + 1, chunk, s, failed0 =>
    match chunk with
    | [] => if failed0 then .ok ([], false) else .ok (s, true)
    | c :: ch =>
      let failed := failed0 || s.isEmpty
      if c = '[' then
        -- read one rune out of s, unless the match has already failed
        -- (Go leaves r at the zero rune in that case); when the match
        -- has not failed, s is nonempty, so headD never takes its default
        match parseClass (if failed then Char.ofNat 0 else s.headD (Char.ofNat 0))
            (classBody ch) false 0 with
        | .error _ => .error ()
        | .ok (mtch, ch2) =>
          matchChunkF fuel ch2 (if failed then s else s.tail)
            (failed || (mtch == classNegated ch))
      else if c = '?' then
        if failed then matchChunkF fuel ch s failed
        else matchChunkF fuel ch s.tail (decide (s.headD (Char.ofNat 0) = '/'))
      else if c = '\\' then
        match ch with
        | [] => .error ()
        | d :: ch' =>
          -- fallthrough into the literal case, comparing the escaped char
          if failed then matchChunkF fuel ch' s failed
          else matchChunkF fuel ch' s.tail (decide (d ≠ s.headD (Char.ofNat 0)))
      else
        if failed then matchChunkF fuel ch s failed
        else matchChunkF fuel ch s.tail (decide (c ≠ s.headD (Char.ofNat 0)))

/-- Wrapper for matchChunkF with sufficient fuel. -/
def matchChunk (chunk s : List Char) (failed : Bool) :
    Except Unit (List Char × Bool) :=
  matchChunkF (chunk.length + 1) chunk s failed

theorem matchChunkF_fuel :
    ∀ (fuel fuel' : Nat) (chunk s : List Char) (failed : Bool),
      chunk.length < fuel → chunk.length < fuel' →
      matchChunkF fuel chunk s failed = matchChunkF fuel' chunk s failed := by
  intro fuel
  induction fuel with
  | zero => intro fuel' chunk s failed h; omega
  | succ f ih =>
    intro fuel' chunk s failed h h'
    cases fuel' with
    | zero => omega
    | succ f' =>
      cases chunk with
      | nil => rfl
      | cons c ch =>
        simp only [List.length_cons] at h h'
        cases ch with
        | nil =>
          rw [matchChunkF, matchChunkF]
          split
          · split
            · rfl
            · rename_i mtch ch2 hpc
              have h2 := parseClass_ok_length hpc
              simp [classBody] at h2
          · split
            · split
              · exact ih f' [] _ _ (by simp; omega) (by simp; omega)
              · exact ih f' [] _ _ (by simp; omega) (by simp; omega)
            · split
              · rfl
              · split
                · exact ih f' [] _ _ (by simp; omega) (by simp; omega)
                · exact ih f' [] _ _ (by simp; omega) (by simp; omega)
        | cons d ch' =>
          have hlen : (d :: ch').length = ch'.length + 1 := by simp
          rw [matchChunkF, matchChunkF]
          split
          · split
            · rfl
            · rename_i mtch ch2 hpc
              have h2 := parseClass_ok_length hpc
              have h3 := classBody_length (d :: ch')
              exact ih f' ch2 _ _ (by omega) (by omega)
          · split
            · split
              · exact ih f' (d :: ch') _ _ (by omega) (by omega)
              · exact ih f' (d :: ch') _ _ (by omega) (by omega)
            · split
              · split
                · exact ih f' ch' _ _ (by omega) (by omega)
                · exact ih f' ch' _ _ (by omega) (by omega)
              · split
                · exact ih f' (d :: ch') _ _ (by omega) (by omega)
                · exact ih f' (d :: ch') _ _ (by omega) (by omega)

theorem matchChunkF_eq_matchChunk {fuel : Nat} {chunk s : List Char}
    {failed : Bool} (h : chunk.length < fuel) :
    matchChunkF fuel chunk s failed = matchChunk chunk s failed :=
  matchChunkF_fuel fuel (chunk.length + 1) chunk s failed h (by omega)

/-- Translation of the leading-star loop of scanChunk
(path/filepath/match.go): strip the leading stars of the pattern,
reporting whether any was present. -/
def dropLeadStars : List Char → Bool × List Char
  | '*' :: rest => (true, (dropLeadStars rest).2)
  | p => (false, p)

/-- Translation of the scanning loop of scanChunk
(path/filepath/match.go): cut the pattern right before the first star
that is not inside a character class; a backslash makes the following
character ordinary. -/
def scanChunkAux (inrange : Bool) (p : List Char) : List Char × List Char :=
  match p with
  | [] => ([], [])
  | c :: rest =>
    if c = '\\' then
      match rest with
      | [] => ([c], [])
      | d :: rest' =>
        let p := scanChunkAux inrange rest'
        (c :: d :: p.1, p.2)
    else if c = '[' then
      let p := scanChunkAux true rest
      (c :: p.1, p.2)
    else if c = ']' then
      let p := scanChunkAux false rest
      (c :: p.1, p.2)
    else if c = '*' then
      if inrange then
        let p := scanChunkAux inrange rest
        (c :: p.1, p.2)
      else ([], c :: rest)
    else
      let p := scanChunkAux inrange rest
      (c :: p.1, p.2)

/-- Translation of scanChunk (path/filepath/match.go): split the
pattern into leading stars, the following star-free chunk, and the rest
of the pattern. -/
def scanChunk (pattern : List Char) : Bool × List Char × List Char :=
  let s := dropLeadStars pattern
  let p := scanChunkAux false s.2
  (s.1, p.1, p.2)

theorem scanChunkAux_append (inrange : Bool) (p : List Char) :
    (scanChunkAux inrange p).1 ++ (scanChunkAux inrange p).2 = p := by
  induction inrange, p using scanChunkAux.induct <;>
    (rw [scanChunkAux.eq_def]; simp_all)

theorem scanChunkAux_length (inrange : Bool) (p : List Char) :
    (scanChunkAux inrange p).1.length + (scanChunkAux inrange p).2.length = p.length := by
  conv_rhs => rw [← scanChunkAux_append inrange p]
  rw [List.length_append]

theorem dropLeadStars_false {p : List Char}
    (h : (dropLeadStars p).1 = false) : (dropLeadStars p).2 = p := by
  induction p using dropLeadStars.induct with
  | case1 rest ih => simp [dropLeadStars] at h
  | case2 p hp =>
    rw [dropLeadStars.eq_def]
    split
    · rename_i rest
      exact absurd rfl (hp rest)
    · rfl

theorem dropLeadStars_head (p : List Char) {c : Char} {q : List Char}
    (h : (dropLeadStars p).2 = c :: q) : c ≠ '*' := by
  induction p using dropLeadStars.induct with
  | case1 rest ih => exact ih (by simpa [dropLeadStars] using h)
  | case2 p hp =>
    rw [dropLeadStars.eq_def] at h
    split at h
    · rename_i rest
      exact absurd rfl (hp rest)
    · simp only at h
      rintro rfl
      exact hp q h

theorem dropLeadStars_length (p : List Char) :
    (dropLeadStars p).2.length ≤ p.length ∧
      ((dropLeadStars p).1 = true → (dropLeadStars p).2.length < p.length) := by
  induction p using dropLeadStars.induct with
  | case1 rest ih =>
    constructor
    · simpa [dropLeadStars] using Nat.le_succ_of_le ih.1
    · intro _
      simpa [dropLeadStars] using Nat.lt_succ_of_le ih.1
  | case2 p hp =>
    rw [dropLeadStars.eq_def]
    split
    · rename_i rest
      exact absurd rfl (hp rest)
    · simp

theorem scanChunkAux_chunk_nil {inrange : Bool} {p : List Char}
    (h : (scanChunkAux inrange p).1 = []) : p = [] ∨ ∃ q, p = '*' :: q := by
  induction inrange, p using scanChunkAux.induct <;>
    (rw [scanChunkAux.eq_def] at h; simp_all)

theorem scanChunk_rest_length {p : List Char} (hp : p ≠ []) :
    (scanChunk p).2.2.length < p.length := by
  have hd := dropLeadStars_length p
  have hl := scanChunkAux_length false (dropLeadStars p).2
  show (scanChunkAux false (dropLeadStars p).2).2.length < p.length
  by_cases hs : (dropLeadStars p).1 = true
  · have := hd.2 hs
    omega
  · have hfix := dropLeadStars_false (by simpa using hs)
    by_cases hc : (scanChunkAux false (dropLeadStars p).2).1 = []
    · rcases scanChunkAux_chunk_nil hc with h0 | ⟨q, hq⟩
      · rw [hfix] at h0; exact absurd h0 hp
      · exact absurd (dropLeadStars_head p hq) (by simp)
    · have h1 : (scanChunkAux false (dropLeadStars p).2).1.length ≠ 0 := by
        simpa using hc
      have hplen : (dropLeadStars p).2.length = p.length := by rw [hfix]
      omega

/-- Translation of the inner star loop of Match (path/filepath/match.go):
look for a position after skipping one or more characters of name, none
a separator, at which the chunk matches; pat is the remaining pattern
after the chunk. Returns the new name on success, none when no position
works, and an error when the matcher rejects the chunk. -/
def starLoop (chunk pat : List Char) : List Char → Except Unit (Option (List Char))
  | [] => .ok none
  | c :: name' =>
    if c = '/' then .ok none
    else
      match matchChunk chunk name' false with
      | .error _ => .error ()
      | .ok (t, tok) =>
        if tok then
          if pat.isEmpty && !t.isEmpty then starLoop chunk pat name'
          else .ok (some t)
        else starLoop chunk pat name'

/-- Translation of Match (path/filepath/match.go): shell glob matching
of name against pattern, where star and question mark do not cross the
path separator. Except.error models ErrBadPattern. The fuel argument
only drives the recursion; the wrapper Match below supplies enough of
it. -/
def MatchF : Nat → List Char → List Char → Except Unit Bool
  | 0, _, _ => .error ()  -- fuel exhaustion, unreachable from the wrapper
  | fuel + 1, pattern, name =>
    if pattern = [] then .ok name.isEmpty
    else
      match scanChunk pattern with
      | (star, chunk, rest) =>
        if star = true ∧ chunk = [] then
          -- a trailing star matches the rest of name unless it has a separator
          .ok (!name.contains '/')
        else
          match matchChunk chunk name false with
          | .error _ => .error ()
          | .ok (t, tok) =>
            if tok && (t.isEmpty || !rest.isEmpty) then MatchF fuel rest t
            else if star then
              match starLoop chunk rest name with
              | .error _ => .error ()
              | .ok (some name') => MatchF fuel rest name'
              | .ok none => .ok false
            else .ok false

/-- Wrapper for MatchF with sufficient fuel. -/
def Match (pattern name : List Char) : Except Unit Bool :=
  MatchF (pattern.length + 1) pattern name

theorem MatchF_fuel :
    ∀ (fuel fuel' : Nat) (pattern name : List Char),
      pattern.length < fuel → pattern.length < fuel' →
      MatchF fuel pattern name = MatchF fuel' pattern name := by
  intro fuel
  induction fuel with
  | zero => intro fuel' pattern name h; omega
  | succ f ih =>
    intro fuel' pattern name h h'
    cases fuel' with
    | zero => omega
    | succ f' =>
      rw [MatchF, MatchF]
      split
      · rfl
      · rename_i hp
        have hrest := scanChunk_rest_length hp
        split
        · rename_i star chunk rest heq
          rw [heq] at hrest
          simp only at hrest
          split
          · rfl
          · split
            · rfl
            · split
              · exact ih f' _ _ (by omega) (by omega)
              · split
                · split
                  · rfl
                  · exact ih f' _ _ (by omega) (by omega)
                  · rfl
                · rfl

theorem MatchF_eq_Match {fuel : Nat} {pattern name : List Char}
    (h : pattern.length < fuel) :
    MatchF fuel pattern name = Match pattern name :=
  MatchF_fuel fuel (pattern.length + 1) pattern name h (by omega)

example : Match ['a', 'b'] ['a', 'b'] = .ok true := by rfl

example : Match ['a', '*', '['] [] = .ok false := by rfl

example : Match ['a', '*', '['] ['a', 'b'] = .error () := by rfl

example : Match ['a', '*', 'c'] ['a', 'x', 'c'] = .ok true := by rfl

example : Match ['[', 'a', '-', 'z', ']'] ['q'] = .ok true := by rfl

example : Match ['[', '^', 'a', ']'] ['a'] = .ok false := by rfl

example : Match ['*'] [] = .ok true := by rfl

example : Match ['a', '*'] ['a', 'b', '/', 'c'] = .ok false := by rfl

example : Match ['[', 'a', '-'] ['x'] = .error () := by rfl

example : Match ['\\', 'a'] ['a'] = .ok true := by rfl

example : Match ['\\'] ['x'] = .error () := by rfl

example : Match ['a', '*', 'c'] ['a', 'x', '/', 'c'] = .ok false := by rfl

/-- Translation of IsAbs (path/filepath/path_unix.go): a path is
absolute when it starts with the separator. -/
def IsAbs : List Char → Bool
  | [] => false
  | c :: _ => decide (c = '/')

/-- Helper for Clean: split a path at the separators; empty components
stand for repeated or leading and trailing separators. -/
def splitSlash : List Char → List (List Char)
  | [] => [[]]
  | '/' :: rest => [] :: splitSlash rest
  | c :: rest =>
    match splitSlash rest with
    | [] => [[c]]  -- unreachable: splitSlash never returns the empty list
    | comp :: comps => (c :: comp) :: comps

/-- Helper for Clean: process one path element, mirroring the main loop
of Clean (path/filepath/path.go). The stack holds the output elements in
reverse. A dot-dot pops the previous element; it is kept when there is
nothing to pop and the path is relative (the kept leading dot-dots are
never popped, which the top-of-stack check detects, matching the dotdot
index of the Go code), and dropped when the path is rooted. -/
def cleanStep (rooted : Bool) (stack : List (List Char)) (comp : List Char) :
    List (List Char) :=
  if comp = ['.', '.'] then
    match stack with
    | top :: rest => if top = ['.', '.'] then comp :: stack else rest
    | [] => if rooted then [] else [comp]
  else comp :: stack

/-- Helper for Clean: join elements with single separators, mirroring
the output buffer writes of Clean (path/filepath/path.go). -/
def joinSlash : List (List Char) → List Char
  | [] => []
  | [comp] => comp
  | comp :: comps => comp ++ '/' :: joinSlash comps

/-- Translation of Clean (path/filepath/path.go) for the Unix separator:
drop repeated separators, eliminate dot elements, eliminate inner
dot-dot elements together with the non-dot-dot element before them, and
drop dot-dot elements at the root. The empty path cleans to a dot. -/
def Clean (path : List Char) : List Char :=
  if path = [] then ['.']
  else
    let rooted := IsAbs path
    let comps := (splitSlash path).filter (fun c => decide (c ≠ [] ∧ c ≠ ['.']))
    let out := (comps.foldl (cleanStep rooted) []).reverse
    let body := joinSlash out
    if rooted then '/' :: body
    else if body = [] then ['.'] else body

example : Clean [] = ['.'] := by rfl
example : Clean ['/', 'a', '/', '/', 'b'] = ['/', 'a', '/', 'b'] := by rfl
example : Clean ['/', 'a', '/', '.', '.', '/', 'b'] = ['/', 'b'] := by rfl
example : Clean ['/', '.', '.', '/', 'a'] = ['/', 'a'] := by rfl
example : Clean ['a', '/', '.', '.'] = ['.'] := by rfl
example : Clean ['.', '.', '/', 'a'] = ['.', '.', '/', 'a'] := by rfl
example : Clean ['.', '.', '/', '.', '.'] = ['.', '.', '/', '.', '.'] := by rfl
example : Clean ['a', '/', '.', '/', 'b', '/'] = ['a', '/', 'b'] := by rfl
example : Clean ['/'] = ['/'] := by rfl

/-- Translation of Join (path/filepath/path.go) restricted to two
elements as used by Abs: skip leading empty elements, join the rest
with a separator and clean the result; all-empty input gives the empty
path without cleaning. -/
def Join (a b : List Char) : List Char :=
  if a = [] ∧ b = [] then []
  else if a = [] then Clean b
  else Clean (a ++ '/' :: b)

/-- Translation of Abs (path/filepath/path_unix.go) with the working
directory passed explicitly in place of os.Getwd (the embedding models
the working directory read as succeeding, so the error branch of Abs is
not represented): an absolute path is cleaned, a relative one is joined
onto the working directory. -/
def Abs (cwd path : List Char) : List Char :=
  if IsAbs path then Clean path else Join cwd path

example : Abs ['/', 'w'] ['a'] = ['/', 'w', '/', 'a'] := by rfl
example : Abs ['/', 'w'] ['/', 'a', '/', '/', 'b'] = ['/', 'a', '/', 'b'] := by rfl

end GoFilepath

/-!
Model of src/exclude.go. The Exclude type is a Go map from pattern to
reason comment; the embedding represents the map as an association
list with unique keys whose order stands for the unspecified Go map
iteration order, and represents the possibly nil map of a zero-value
Exclude with an Option. The working directory that filepath.Abs reads
through os.Getwd is passed explicitly, modelled as always available
(the error branch of Abs, the PathResolutionError of the spec, is the
only part of the loop not represented). -/

/-- Translation of the Exclude type (src/exclude.go line 24): a mapping
from exclusion pattern to reason comment, as an association list. -/
abbrev Exclude := List (List Char × List Char)

/-- Errors returned by UnmarshalJSON (src/exclude.go lines 39-40 and
44-50): the error of the inner generic JSON decode, the invalid-pattern
error carrying the offending pattern, and the absolutization error
carrying the pattern (the last is unreachable in the model because the
working directory read is modelled as succeeding). -/
inductive ExcludeErr
  | malformedConfig
  | invalidPattern (pattern : List Char)
  | pathResolution (pattern : List Char)
deriving DecidableEq

/-- Modelled from the spec: outcome of the generic JSON decoding step
json.Unmarshal(b, &m) at src/exclude.go line 39, which is Go standard
library code outside this repository (the spec scopes the outer JSON
parsing out as an external collaborator). The ok case carries the
decoded entries listed in the unspecified map iteration order; the err
case covers every byte sequence that is not valid JSON or not a flat
string-to-string object. -/
inductive DecodeResult
  | ok (entries : List (List Char × List Char))
  | err

/-- Model of the validation probe filepath.Glob(pattern) at
src/exclude.go line 44: Glob first checks the pattern through
Match(pattern, "") and returns its error; after that probe, an error
can arise only while matching the pattern against existing directory
entries, so with the filesystem abstracted as empty (nothing to match)
Glob errors exactly when the probe errors. -/
def globOk (pattern : List Char) : Bool :=
  match GoFilepath.Match pattern [] with
  | .error _ => false
  | .ok _ => true

/-- Model of one Go map assignment m[k] = v: replace the binding of k
in place when present, otherwise append a new binding. -/
def mapInsert (k v : List Char) : Exclude → Exclude
  | [] => [(k, v)]
  | (k', v') :: rest =>
    if k' = k then (k, v) :: rest else (k', v') :: mapInsert k v rest

/-- Translation of the loop of UnmarshalJSON (src/exclude.go lines
43-52) over the decoded entries in iteration order: probe each pattern
with Glob, absolutize it with Abs, insert it with its reason; the loop
returns the invalid-pattern error of the first failing entry, keeping
the entries inserted before it. -/
def unmarshalEntries (cwd : List Char) (acc : Exclude) :
    List (List Char × List Char) → Exclude × Option ExcludeErr
  | [] => (acc, none)
  | (pattern, reason) :: rest =>
    if globOk pattern then
      unmarshalEntries cwd (mapInsert (GoFilepath.Abs cwd pattern) reason acc) rest
    else (acc, some (.invalidPattern pattern))

/-- Translation of UnmarshalJSON (src/exclude.go lines 37-54), with the
working directory explicit: a failed JSON decode returns that error
with the receiver untouched; otherwise the receiver is reset to an
empty allocated map and populated entry by entry, stopping at the first
invalid pattern. The result is the receiver state after the call
together with the returned error (none on success). -/
def UnmarshalJSON (cwd : List Char) (dec : DecodeResult) (st : Option Exclude) :
    Option Exclude × Option ExcludeErr :=
  match dec with
  | .err => (st, some .malformedConfig)
  | .ok entries =>
    let r := unmarshalEntries cwd [] entries
    (some r.1, r.2)

/-- Range of a possibly nil Go map: the zero-value Exclude holds a nil
map, over which range iterates zero times. -/
def rangeEntries : Option Exclude → Exclude
  | none => []
  | some m => m

/-- Translation of Excluded (src/exclude.go lines 57-69): try each
stored pattern against the path with filepath.Match; an error of Match
makes the method panic, modelled as Except.error; a match returns true;
exhaustion of the patterns returns false. -/
def Excluded (e : Exclude) (path : List Char) : Except Unit Bool :=
  match e with
  | [] => .ok false
  | (pattern, _) :: rest =>
    match GoFilepath.Match pattern path with
    | .error _ => .error ()  -- the Go code panics here
    | .ok true => .ok true
    | .ok false => Excluded rest path

/-- Excluded on a possibly nil receiver: the Go method dereferences the
pointer receiver and ranges over the map, and range over a nil map is
empty. -/
def ExcludedOpt (st : Option Exclude) (path : List Char) : Except Unit Bool :=
  Excluded (rangeEntries st) path

/-- Boolean outcome of one pattern test of Excluded: true exactly when
Match returns a match; an erroring pattern matches nothing. -/
def isMatch (pattern path : List Char) : Bool :=
  match GoFilepath.Match pattern path with
  | .ok b => b
  | .error _ => false

/-- Mapping produced by a fully successful load: every entry
absolutized against the working directory and inserted in iteration
order. -/
def loadMap (cwd : List Char) (entries : List (List Char × List Char)) : Exclude :=
  entries.foldl (fun acc kv => mapInsert (GoFilepath.Abs cwd kv.1) kv.2 acc) []

/-- Lookup in the association list modelling the Go map. -/
def mapGet (k : List Char) : Exclude → Option (List Char)
  | [] => none
  | (k', v) :: rest => if k' = k then some v else mapGet k rest

/-- Canonicalize operation of spec section 8: replace every wildcard of
a pattern by literally matching text; the question mark becomes a fixed
ordinary character and the star the empty string. Character classes and
escapes have no single literal form, so the spec operation is
meaningful on the class-free and escape-free patterns. -/
def canon : List Char → List Char
  | [] => []
  | c :: p =>
    if c = '*' then canon p
    else if c = '?' then 'a' :: canon p
    else c :: canon p

/-- Strong well-formedness of one chunk: matchChunk reports a bad
pattern independently of the matched string, so probing with the empty
string and the failed flag set walks every class of the chunk. -/
def chunkOK (chunk : List Char) : Bool :=
  match GoFilepath.matchChunk chunk [] true with
  | .error _ => false
  | .ok _ => true

/-- Strong well-formedness of a full pattern: every chunk produced by
scanChunk is strongly well-formed. This is stronger than the load-time
probe globOk, which only checks the chunks that Match(pattern, "")
actually reaches. The fuel argument only drives the recursion; the
wrapper patternOK below supplies enough of it. -/
def patternOKF : Nat → List Char → Bool
  | 0, _ => false  -- fuel exhaustion, unreachable from the wrapper
  | fuel + 1, p =>
    if p = [] then true
    else
      match GoFilepath.scanChunk p with
      | (_, chunk, rest) => (chunk.isEmpty || chunkOK chunk) && patternOKF fuel rest

/-- Wrapper for patternOKF with sufficient fuel. -/
def patternOK (p : List Char) : Bool := patternOKF (p.length + 1) p

theorem patternOKF_fuel :
    ∀ (fuel fuel' : Nat) (p : List Char),
      p.length < fuel → p.length < fuel' →
      patternOKF fuel p = patternOKF fuel' p := by
  intro fuel
  induction fuel with
  | zero => intro fuel' p h; omega
  | succ f ih =>
    intro fuel' p h h'
    cases fuel' with
    | zero => omega
    | succ f' =>
      rw [patternOKF, patternOKF]
      split
      · rfl
      · rename_i hp
        have hrest := GoFilepath.scanChunk_rest_length hp
        split
        · rename_i star chunk rest heq
          rw [heq] at hrest
          simp only at hrest
          rw [ih f' rest (by omega) (by omega)]

theorem patternOKF_eq_patternOK {fuel : Nat} {p : List Char}
    (h : p.length < fuel) : patternOKF fuel p = patternOK p :=
  patternOKF_fuel fuel (p.length + 1) p h (by omega)

example : globOk ['a', '*', '['] = true := by rfl
example : globOk ['['] = false := by rfl
example : patternOK ['a', '*', '['] = false := by rfl
example : patternOK ['/', 'w', '/', 'a'] = true := by rfl
example :
    UnmarshalJSON ['/', 'w'] (.ok [(['a'], ['r'])]) none =
      (some [(['/', 'w', '/', 'a'], ['r'])], none) := by rfl
example :
    Excluded [(['/', 'w', '/', 'a', '*', '['], ['r'])] ['/', 'w', '/', 'a', 'b'] =
      .error () := by rfl

/-!
Congruence lemmas: inside matchChunk the detection of a bad pattern
walks the chunk only, so whether an error is reported is independent of
the matched string and of the failed flag, and the chunk left after a
parsed class does not depend on the rune that was read. -/

namespace GoFilepath

theorem parseClassF_ok_congr :
    ∀ (fuel : Nat) (chunk : List Char) (m : Bool) (n : Nat) (b : Bool) (t : List Char)
      (r r' : Char) (m' : Bool),
      parseClassF r fuel chunk m n = .ok (b, t) →
      ∃ b', parseClassF r' fuel chunk m' n = .ok (b', t) := by
  intro fuel
  induction fuel with
  | zero => intro chunk m n b t r r' m' h; simp [parseClassF] at h
  | succ f ih =>
    intro chunk m n b t r r' m' h
    rw [parseClassF] at h ⊢
    by_cases hcond : chunk.head? = some ']' ∧ 0 < n
    · rw [if_pos hcond] at h ⊢
      obtain ⟨rfl, rfl⟩ : m = b ∧ chunk.tail = t := by simpa using h
      exact ⟨m', rfl⟩
    · rw [if_neg hcond] at h ⊢
      cases hg : getEsc chunk with
      | error e => rw [hg] at h; simp at h
      | ok v =>
        obtain ⟨lo, c1⟩ := v
        rw [hg] at h
        dsimp only at h ⊢
        by_cases hdash : c1.head? = some '-'
        · rw [if_pos hdash] at h ⊢
          cases hg2 : getEsc c1.tail with
          | error e => rw [hg2] at h; simp at h
          | ok w =>
            obtain ⟨hi, c2⟩ := w
            rw [hg2] at h
            dsimp only at h ⊢
            exact ih c2 _ _ b t r r' _ h
        · rw [if_neg hdash] at h ⊢
          exact ih c1 _ _ b t r r' _ h

theorem parseClass_ok_congr {chunk : List Char} {m : Bool} {n : Nat} {b : Bool}
    {t : List Char} {r : Char} (r' : Char) (m' : Bool)
    (h : parseClass r chunk m n = .ok (b, t)) :
    ∃ b', parseClass r' chunk m' n = .ok (b', t) :=
  parseClassF_ok_congr _ chunk m n b t r r' m' h

theorem parseClass_err_congr {chunk : List Char} {m : Bool} {n : Nat} {r : Char}
    (r' : Char) (m' : Bool) (h : parseClass r chunk m n = .error ()) :
    parseClass r' chunk m' n = .error () := by
  cases hg : parseClass r' chunk m' n with
  | error e => rfl
  | ok v =>
    obtain ⟨b, t⟩ := v
    obtain ⟨b', hb⟩ := parseClass_ok_congr r m hg
    rw [h] at hb
    cases hb

theorem matchChunkF_err_congr :
    ∀ (fuel : Nat) (chunk s : List Char) (failed : Bool) (s' : List Char) (failed' : Bool),
      chunk.length < fuel →
      matchChunkF fuel chunk s failed = .error () →
      matchChunkF fuel chunk s' failed' = .error () := by
  intro fuel
  induction fuel with
  | zero => intro chunk s failed s' failed' h; omega
  | succ f ih =>
    intro chunk s failed s' failed' hlen h
    cases chunk with
    | nil =>
      rw [matchChunkF] at h
      split at h <;> cases h
    | cons c ch =>
      simp only [List.length_cons] at hlen
      cases ch with
      | nil =>
        rw [matchChunkF] at h ⊢
        split at h
        · rw [if_pos (by assumption)]
          rfl
        · split at h
          · rw [if_neg (by assumption), if_pos (by assumption)]
            split at h
            · split
              · exact ih [] _ _ _ _ (by omega) h
              · exact ih [] _ _ _ _ (by omega) h
            · split
              · exact ih [] _ _ _ _ (by omega) h
              · exact ih [] _ _ _ _ (by omega) h
          · split at h
            · rw [if_neg (by assumption), if_neg (by assumption),
                if_pos (by assumption)]
            · rw [if_neg (by assumption), if_neg (by assumption),
                if_neg (by assumption)]
              split at h
              · split
                · exact ih [] _ _ _ _ (by omega) h
                · exact ih [] _ _ _ _ (by omega) h
              · split
                · exact ih [] _ _ _ _ (by omega) h
                · exact ih [] _ _ _ _ (by omega) h
      | cons d ch' =>
        have hlen2 : ch'.length + 1 < f := by simpa using hlen
        rw [matchChunkF] at h ⊢
        split at h
        · rw [if_pos (by assumption)]
          cases hpc : parseClass (if (failed || s.isEmpty) = true then Char.ofNat 0
              else s.headD (Char.ofNat 0)) (classBody (d :: ch')) false 0 with
          | error e =>
            rw [parseClass_err_congr _ false hpc]
          | ok v =>
            obtain ⟨mtch, ch2⟩ := v
            rw [hpc] at h
            dsimp only at h
            have h2 := parseClass_ok_length hpc
            have h3 := classBody_length (d :: ch')
            simp only [List.length_cons] at h2 h3
            obtain ⟨mtch', hpc'⟩ := parseClass_ok_congr
              (if (failed' || s'.isEmpty) = true then Char.ofNat 0
                else s'.headD (Char.ofNat 0)) false hpc
            rw [hpc']
            dsimp only
            exact ih ch2 _ _ _ _ (by omega) h
        · split at h
          · rw [if_neg (by assumption), if_pos (by assumption)]
            split at h
            · split
              · exact ih (d :: ch') _ _ _ _ (by simp only [List.length_cons]; omega) h
              · exact ih (d :: ch') _ _ _ _ (by simp only [List.length_cons]; omega) h
            · split
              · exact ih (d :: ch') _ _ _ _ (by simp only [List.length_cons]; omega) h
              · exact ih (d :: ch') _ _ _ _ (by simp only [List.length_cons]; omega) h
          · split at h
            · rw [if_neg (by assumption), if_neg (by assumption),
                if_pos (by assumption)]
              split at h
              · split
                · exact ih ch' _ _ _ _ (by omega) h
                · exact ih ch' _ _ _ _ (by omega) h
              · split
                · exact ih ch' _ _ _ _ (by omega) h
                · exact ih ch' _ _ _ _ (by omega) h
            · rw [if_neg (by assumption), if_neg (by assumption),
                if_neg (by assumption)]
              split at h
              · split
                · exact ih (d :: ch') _ _ _ _ (by simp only [List.length_cons]; omega) h
                · exact ih (d :: ch') _ _ _ _ (by simp only [List.length_cons]; omega) h
              · split
                · exact ih (d :: ch') _ _ _ _ (by simp only [List.length_cons]; omega) h
                · exact ih (d :: ch') _ _ _ _ (by simp only [List.length_cons]; omega) h

theorem matchChunk_err_congr {chunk s : List Char} {failed : Bool}
    (s' : List Char) (failed' : Bool)
    (h : matchChunk chunk s failed = .error ()) :
    matchChunk chunk s' failed' = .error () :=
  matchChunkF_err_congr _ chunk s failed s' failed' (by omega) h

end GoFilepath

theorem matchChunk_no_error {chunk : List Char} (h : chunkOK chunk = true)
    (s : List Char) (f : Bool) : GoFilepath.matchChunk chunk s f ≠ .error () := by
  intro he
  have hz := GoFilepath.matchChunk_err_congr ([] : List Char) true he
  unfold chunkOK at h
  rw [hz] at h
  simp at h

theorem chunkOK_of_empty_or {chunk : List Char}
    (h : (chunk.isEmpty || chunkOK chunk) = true) : chunkOK chunk = true := by
  cases chunk with
  | nil => rfl
  | cons c ch => simpa using h

theorem starLoop_no_error {chunk : List Char} (h : chunkOK chunk = true)
    (pat : List Char) (name : List Char) :
    GoFilepath.starLoop chunk pat name ≠ .error () := by
  induction name with
  | nil => simp [GoFilepath.starLoop]
  | cons c name' ih =>
    rw [GoFilepath.starLoop]
    split
    · simp
    · cases hmc : GoFilepath.matchChunk chunk name' false with
      | error e =>
        exact absurd hmc (matchChunk_no_error h name' false)
      | ok v =>
        obtain ⟨t, tok⟩ := v
        dsimp only
        split
        · split
          · exact ih
          · simp
        · exact ih

theorem MatchF_no_error :
    ∀ (fuel : Nat) (p name : List Char), p.length < fuel → patternOK p = true →
      GoFilepath.MatchF fuel p name ≠ .error () := by
  intro fuel
  induction fuel with
  | zero => intro p name h; omega
  | succ f ih =>
    intro p name hlen hOK
    rw [GoFilepath.MatchF]
    split
    · simp
    · rename_i hp
      have hrest := GoFilepath.scanChunk_rest_length hp
      rw [patternOK, patternOKF] at hOK
      rw [if_neg hp] at hOK
      split
      · rename_i star chunk rest heq
        rw [heq] at hOK hrest
        dsimp only at hOK hrest
        rw [patternOKF_eq_patternOK (by omega)] at hOK
        simp only [Bool.and_eq_true] at hOK
        obtain ⟨hchunk, hrestOK⟩ := hOK
        have hcOK := chunkOK_of_empty_or hchunk
        split
        · simp
        · cases hmc : GoFilepath.matchChunk chunk name false with
          | error e => exact absurd hmc (matchChunk_no_error hcOK name false)
          | ok v =>
            obtain ⟨t, tok⟩ := v
            dsimp only
            split
            · exact ih rest t (by omega) hrestOK
            · split
              · cases hsl : GoFilepath.starLoop chunk rest name with
                | error e => exact absurd hsl (starLoop_no_error hcOK rest name)
                | ok o =>
                  cases o with
                  | none => simp
                  | some name' =>
                    dsimp only
                    exact ih rest name' (by omega) hrestOK
              · simp

theorem Match_no_error {p : List Char} (hOK : patternOK p = true)
    (name : List Char) : GoFilepath.Match p name ≠ .error () :=
  MatchF_no_error _ p name (by omega) hOK

/-!
Step lemmas for matchChunk on a literal or question-mark head, and the
canonicalize self-match: a pattern without classes and escapes matches
its own canonicalization. -/

namespace GoFilepath

theorem matchChunk_nil (s : List Char) (f : Bool) :
    matchChunk [] s f = if f then .ok ([], false) else .ok (s, true) := rfl

theorem matchChunk_cons_lit {c : Char} (ch s : List Char) (f0 : Bool)
    (h1 : c ≠ '[') (h2 : c ≠ '?') (h3 : c ≠ '\\') :
    matchChunk (c :: ch) s f0 =
      if (f0 || s.isEmpty) then matchChunk ch s (f0 || s.isEmpty)
      else matchChunk ch s.tail (decide (c ≠ s.headD (Char.ofNat 0))) := by
  show matchChunkF ((c :: ch).length + 1) (c :: ch) s f0 = _
  cases ch with
  | nil =>
    rw [matchChunkF]
    rw [if_neg h1, if_neg h2, if_neg h3]
    rfl
  | cons d ch' =>
    rw [matchChunkF]
    rw [if_neg h1, if_neg h2, if_neg h3]
    rfl

theorem matchChunk_cons_q (ch s : List Char) (f0 : Bool) :
    matchChunk ('?' :: ch) s f0 =
      if (f0 || s.isEmpty) then matchChunk ch s (f0 || s.isEmpty)
      else matchChunk ch s.tail (decide (s.headD (Char.ofNat 0) = '/')) := by
  show matchChunkF (('?' :: ch).length + 1) ('?' :: ch) s f0 = _
  cases ch with
  | nil =>
    rw [matchChunkF]
    rw [if_neg (by decide : ¬('?' : Char) = '['), if_pos rfl]
    rfl
  | cons d ch' =>
    rw [matchChunkF]
    rw [if_neg (by decide : ¬('?' : Char) = '['), if_pos rfl]
    rfl

end GoFilepath

theorem canon_cons_lit {c : Char} (p : List Char) (h1 : c ≠ '*') (h2 : c ≠ '?') :
    canon (c :: p) = c :: canon p := by
  rw [canon]
  rw [if_neg h1, if_neg h2]

theorem canon_append (a b : List Char) : canon (a ++ b) = canon a ++ canon b := by
  induction a with
  | nil => rfl
  | cons c p ih =>
    by_cases h1 : c = '*'
    · subst h1
      show canon ('*' :: (p ++ b)) = canon ('*' :: p) ++ canon b
      rw [canon, if_pos rfl, canon, if_pos rfl]
      exact ih
    · by_cases h2 : c = '?'
      · subst h2
        show canon ('?' :: (p ++ b)) = canon ('?' :: p) ++ canon b
        rw [canon, if_neg h1, if_pos rfl, canon, if_neg h1, if_pos rfl, ih]
        rfl
      · show canon (c :: (p ++ b)) = canon (c :: p) ++ canon b
        rw [canon_cons_lit _ h1 h2, canon_cons_lit _ h1 h2, ih]
        rfl

theorem canon_dropLeadStars (p : List Char) :
    canon (GoFilepath.dropLeadStars p).2 = canon p := by
  induction p using GoFilepath.dropLeadStars.induct with
  | case1 rest ih =>
    rw [GoFilepath.dropLeadStars]
    exact ih
  | case2 p hp =>
    rw [GoFilepath.dropLeadStars.eq_def]
    split
    · rename_i rest
      exact absurd rfl (hp rest)
    · rfl

theorem dropLeadStars_not_mem {c : Char} {p : List Char} (h : c ∉ p) :
    c ∉ (GoFilepath.dropLeadStars p).2 := by
  induction p using GoFilepath.dropLeadStars.induct with
  | case1 rest ih =>
    rw [GoFilepath.dropLeadStars]
    exact ih (fun hm => h (List.mem_cons_of_mem _ hm))
  | case2 p hp =>
    rw [GoFilepath.dropLeadStars.eq_def]
    split
    · rename_i rest
      exact absurd rfl (hp rest)
    · exact h

theorem scanChunkAux_no_star {p : List Char} (h1 : '[' ∉ p) (h2 : '\\' ∉ p) :
    '*' ∉ (GoFilepath.scanChunkAux false p).1 := by
  induction p with
  | nil => simp [GoFilepath.scanChunkAux]
  | cons c rest ih =>
    have hc1 : c ≠ '[' := fun hc => h1 (hc ▸ List.mem_cons_self c rest)
    have hc2 : c ≠ '\\' := fun hc => h2 (hc ▸ List.mem_cons_self c rest)
    have hr1 : '[' ∉ rest := fun hm => h1 (List.mem_cons_of_mem _ hm)
    have hr2 : '\\' ∉ rest := fun hm => h2 (List.mem_cons_of_mem _ hm)
    rw [GoFilepath.scanChunkAux.eq_def]
    dsimp only
    rw [if_neg hc2, if_neg hc1]
    by_cases hc3 : c = ']'
    · rw [if_pos hc3]
      intro hm
      rcases List.mem_cons.mp hm with hh | hh
      · exact absurd hh.symm (hc3 ▸ by decide)
      · exact ih hr1 hr2 hh
    · rw [if_neg hc3]
      by_cases hc4 : c = '*'
      · rw [if_pos hc4]
        simp
      · rw [if_neg hc4]
        intro hm
        rcases List.mem_cons.mp hm with hh | hh
        · exact hc4 hh.symm
        · exact ih hr1 hr2 hh

theorem matchChunk_canonChunk :
    ∀ (chunk : List Char), '*' ∉ chunk → '[' ∉ chunk → '\\' ∉ chunk →
      ∀ s, GoFilepath.matchChunk chunk (canon chunk ++ s) false = .ok (s, true) := by
  intro chunk
  induction chunk with
  | nil => intro _ _ _ s; rfl
  | cons c ch ih =>
    intro h1 h2 h3 s
    have hc1 : c ≠ '*' := fun hc => h1 (hc ▸ List.mem_cons_self c ch)
    have hc2 : c ≠ '[' := fun hc => h2 (hc ▸ List.mem_cons_self c ch)
    have hc3 : c ≠ '\\' := fun hc => h3 (hc ▸ List.mem_cons_self c ch)
    have hh1 : '*' ∉ ch := fun hm => h1 (List.mem_cons_of_mem _ hm)
    have hh2 : '[' ∉ ch := fun hm => h2 (List.mem_cons_of_mem _ hm)
    have hh3 : '\\' ∉ ch := fun hm => h3 (List.mem_cons_of_mem _ hm)
    by_cases hq : c = '?'
    · subst hq
      have hcanon : canon ('?' :: ch) = 'a' :: canon ch := rfl
      rw [hcanon, GoFilepath.matchChunk_cons_q]
      simp only [List.cons_append, List.isEmpty_cons, Bool.or_false, List.tail_cons,
        List.headD_cons]
      rw [if_neg (by simp)]
      have : (decide (('a' : Char) = '/')) = false := by decide
      rw [this]
      exact ih hh1 hh2 hh3 s
    · have hcanon : canon (c :: ch) = c :: canon ch := canon_cons_lit _ hc1 hq
      rw [hcanon, GoFilepath.matchChunk_cons_lit _ _ _ hc2 hq hc3]
      simp only [List.cons_append, List.isEmpty_cons, Bool.or_false, List.tail_cons,
        List.headD_cons]
      rw [if_neg (by simp)]
      have : (decide (c ≠ c)) = false := by simp
      rw [this]
      exact ih hh1 hh2 hh3 s

theorem MatchF_canon :
    ∀ (fuel : Nat) (p : List Char), p.length < fuel → '[' ∉ p → '\\' ∉ p →
      GoFilepath.MatchF fuel p (canon p) = .ok true := by
  intro fuel
  induction fuel with
  | zero => intro p h; omega
  | succ f ih =>
    intro p hlen h1 h2
    rw [GoFilepath.MatchF]
    split
    · rename_i hp
      subst hp
      rfl
    · rename_i hp
      split
      · rename_i star chunk rest heq
        have hstar : (GoFilepath.dropLeadStars p).1 = star := congrArg Prod.fst heq
        have hchunk :
            (GoFilepath.scanChunkAux false (GoFilepath.dropLeadStars p).2).1 = chunk :=
          congrArg (fun x => x.2.1) heq
        have hrest :
            (GoFilepath.scanChunkAux false (GoFilepath.dropLeadStars p).2).2 = rest :=
          congrArg (fun x => x.2.2) heq
        have hd1 : '[' ∉ (GoFilepath.dropLeadStars p).2 := dropLeadStars_not_mem h1
        have hd2 : '\\' ∉ (GoFilepath.dropLeadStars p).2 := dropLeadStars_not_mem h2
        have happ := GoFilepath.scanChunkAux_append false (GoFilepath.dropLeadStars p).2
        rw [hchunk, hrest] at happ
        have hcanon : canon p = canon chunk ++ canon rest := by
          rw [← canon_dropLeadStars p, ← happ, canon_append]
        have hmc1 : '[' ∉ chunk := fun hm => hd1 (by
          rw [← happ]
          exact List.mem_append_left _ hm)
        have hmc2 : '\\' ∉ chunk := fun hm => hd2 (by
          rw [← happ]
          exact List.mem_append_left _ hm)
        have hmr1 : '[' ∉ rest := fun hm => hd1 (by
          rw [← happ]
          exact List.mem_append_right _ hm)
        have hmr2 : '\\' ∉ rest := fun hm => hd2 (by
          rw [← happ]
          exact List.mem_append_right _ hm)
        have hmc0 : '*' ∉ chunk := hchunk ▸ scanChunkAux_no_star hd1 hd2
        have hrlen := GoFilepath.scanChunk_rest_length hp
        rw [heq] at hrlen
        dsimp only at hrlen
        split
        · rename_i hsc
          obtain ⟨-, hce⟩ := hsc
          subst hce
          have hdls : (GoFilepath.dropLeadStars p).2 = [] := by
            rcases GoFilepath.scanChunkAux_chunk_nil hchunk with h0 | ⟨q, hq⟩
            · exact h0
            · exact absurd (GoFilepath.dropLeadStars_head p hq) (by simp)
          have : rest = [] := by
            rw [← hrest, hdls]
            rfl
          subst this
          rw [hcanon]
          rfl
        · rw [hcanon, matchChunk_canonChunk chunk hmc0 hmc1 hmc2 (canon rest)]
          dsimp only
          have hcond : (true && ((canon rest).isEmpty || !rest.isEmpty)) = true := by
            cases hr : rest with
            | nil => rfl
            | cons a q => simp
          rw [hcond, if_pos rfl]
          exact ih rest (by omega) hmr1 hmr2

theorem Match_canon {p : List Char} (h1 : '[' ∉ p) (h2 : '\\' ∉ p) :
    GoFilepath.Match p (canon p) = .ok true :=
  MatchF_canon _ p (by omega) h1 h2

/-!
Lemmas about Excluded: with no erroring pattern it computes the
existence of a matching pattern, a true answer exhibits a matching
pattern, a false answer rules every pattern out, and two iteration
orders that both complete agree. -/

theorem Excluded_eq_any {path : List Char} :
    ∀ {e : Exclude}, (∀ kv ∈ e, GoFilepath.Match kv.1 path ≠ .error ()) →
      Excluded e path = .ok (e.any fun kv => isMatch kv.1 path) := by
  intro e
  induction e with
  | nil => intro _; rfl
  | cons kv rest ih =>
    intro h
    obtain ⟨pat, reason⟩ := kv
    rw [Excluded]
    cases hm : GoFilepath.Match pat path with
    | error u =>
      cases u
      exact absurd hm (h (pat, reason) (List.mem_cons_self _ _))
    | ok b =>
      cases b with
      | true => simp [List.any_cons, isMatch, hm]
      | false =>
        rw [ih (fun kv hm2 => h kv (List.mem_cons_of_mem _ hm2))]
        simp [List.any_cons, isMatch, hm]

theorem Excluded_ok_true {path : List Char} :
    ∀ {e : Exclude}, Excluded e path = .ok true →
      ∃ kv ∈ e, GoFilepath.Match kv.1 path = .ok true := by
  intro e
  induction e with
  | nil => intro h; simp [Excluded] at h
  | cons kv rest ih =>
    intro h
    obtain ⟨pat, reason⟩ := kv
    rw [Excluded] at h
    cases hm : GoFilepath.Match pat path with
    | error u => rw [hm] at h; cases h
    | ok b =>
      cases b with
      | true => exact ⟨(pat, reason), List.mem_cons_self _ _, hm⟩
      | false =>
        rw [hm] at h
        obtain ⟨kv2, hmem, hkv2⟩ := ih h
        exact ⟨kv2, List.mem_cons_of_mem _ hmem, hkv2⟩

theorem Excluded_ok_false {path : List Char} :
    ∀ {e : Exclude}, Excluded e path = .ok false →
      ∀ kv ∈ e, GoFilepath.Match kv.1 path = .ok false := by
  intro e
  induction e with
  | nil => intro _ kv hm; cases hm
  | cons kv0 rest ih =>
    intro h kv hm
    obtain ⟨pat, reason⟩ := kv0
    rw [Excluded] at h
    cases hm0 : GoFilepath.Match pat path with
    | error u => rw [hm0] at h; cases h
    | ok b =>
      cases b with
      | true => rw [hm0] at h; cases h
      | false =>
        rw [hm0] at h
        rcases List.mem_cons.mp hm with rfl | hm2
        · exact hm0
        · exact ih h kv hm2

theorem Excluded_perm_agree {e e' : Exclude} {path : List Char} {b b' : Bool}
    (hperm : e.Perm e') (h : Excluded e path = .ok b) (h' : Excluded e' path = .ok b') :
    b = b' := by
  cases b with
  | true =>
    cases b' with
    | true => rfl
    | false =>
      obtain ⟨kv, hmem, hkv⟩ := Excluded_ok_true h
      have := Excluded_ok_false h' kv (hperm.mem_iff.mp hmem)
      rw [hkv] at this
      cases this
  | false =>
    cases b' with
    | false => rfl
    | true =>
      obtain ⟨kv, hmem, hkv⟩ := Excluded_ok_true h'
      have := Excluded_ok_false h kv (hperm.mem_iff.mpr hmem)
      rw [hkv] at this
      cases this

/-!
Lemmas about the load loop: a load whose entries all pass the probe
folds them into the map with no error; the first failing entry stops
the loop, keeping the entries inserted before it; some failing entry
forces an invalid-pattern error. -/

theorem unmarshalEntries_ok {cwd : List Char} :
    ∀ (entries : List (List Char × List Char)) (acc : Exclude),
      (∀ kv ∈ entries, globOk kv.1 = true) →
      unmarshalEntries cwd acc entries =
        (entries.foldl (fun a kv => mapInsert (GoFilepath.Abs cwd kv.1) kv.2 a) acc,
          none) := by
  intro entries
  induction entries with
  | nil => intro acc _; rfl
  | cons kv rest ih =>
    intro acc h
    obtain ⟨pat, reason⟩ := kv
    rw [unmarshalEntries]
    rw [if_pos (h (pat, reason) (List.mem_cons_self _ _))]
    rw [ih _ (fun kv2 hm => h kv2 (List.mem_cons_of_mem _ hm))]
    rfl

theorem unmarshalEntries_first_bad {cwd : List Char} :
    ∀ (good : List (List Char × List Char)) (bad : List Char × List Char)
      (rest : List (List Char × List Char)) (acc : Exclude),
      (∀ kv ∈ good, globOk kv.1 = true) → globOk bad.1 = false →
      unmarshalEntries cwd acc (good ++ bad :: rest) =
        (good.foldl (fun a kv => mapInsert (GoFilepath.Abs cwd kv.1) kv.2 a) acc,
          some (.invalidPattern bad.1)) := by
  intro good
  induction good with
  | nil =>
    intro bad rest acc _ hbad
    obtain ⟨pat, reason⟩ := bad
    rw [List.nil_append, unmarshalEntries]
    rw [if_neg (by simp at hbad ⊢; exact hbad)]
    rfl
  | cons kv good' ih =>
    intro bad rest acc h hbad
    obtain ⟨pat, reason⟩ := kv
    rw [List.cons_append, unmarshalEntries]
    rw [if_pos (h (pat, reason) (List.mem_cons_self _ _))]
    rw [ih bad rest _ (fun kv2 hm => h kv2 (List.mem_cons_of_mem _ hm)) hbad]
    rfl

theorem unmarshalEntries_exists_bad {cwd : List Char} :
    ∀ (entries : List (List Char × List Char)) (acc : Exclude),
      (∃ kv ∈ entries, globOk kv.1 = false) →
      ∃ p, (unmarshalEntries cwd acc entries).2 = some (.invalidPattern p) ∧
        globOk p = false ∧ p ∈ entries.map Prod.fst := by
  intro entries
  induction entries with
  | nil => intro acc h; simp at h
  | cons kv rest ih =>
    intro acc h
    obtain ⟨pat, reason⟩ := kv
    rw [unmarshalEntries]
    by_cases hg : globOk pat = true
    · rw [if_pos hg]
      obtain ⟨kv2, hmem, hkv2⟩ := h
      rcases List.mem_cons.mp hmem with rfl | hm2
      · rw [hg] at hkv2; cases hkv2
      · obtain ⟨p, hp1, hp2, hp3⟩ := ih _ ⟨kv2, hm2, hkv2⟩
        exact ⟨p, hp1, hp2, by simp [hp3]⟩
    · rw [if_neg hg]
      exact ⟨pat, rfl, by simpa using hg, by simp⟩

/-!
Lemmas about the map model: insertion keeps keys unique, membership is
insertion or earlier membership, lookup after insertion, the loaded map
holds the reason of the last entry canonicalizing to a key, and every
key of a successful load is absolute when the working directory is. -/

theorem mapInsert_mem {kv : List Char × List Char} {k v : List Char} :
    ∀ {m : Exclude}, kv ∈ mapInsert k v m → kv = (k, v) ∨ kv ∈ m := by
  intro m
  induction m with
  | nil =>
    intro h
    left
    simpa [mapInsert] using h
  | cons kv0 rest ih =>
    intro h
    obtain ⟨k', v'⟩ := kv0
    rw [mapInsert] at h
    split at h
    · rcases List.mem_cons.mp h with rfl | hm
      · exact Or.inl rfl
      · exact Or.inr (List.mem_cons_of_mem _ hm)
    · rcases List.mem_cons.mp h with rfl | hm
      · exact Or.inr (List.mem_cons_self _ _)
      · rcases ih hm with h1 | h1
        · exact Or.inl h1
        · exact Or.inr (List.mem_cons_of_mem _ h1)

theorem mapInsert_keys_mem {a k v : List Char} :
    ∀ {m : Exclude}, a ∈ (mapInsert k v m).map Prod.fst ↔
      a = k ∨ a ∈ m.map Prod.fst := by
  intro m
  induction m with
  | nil => simp [mapInsert]
  | cons kv0 rest ih =>
    obtain ⟨k', v'⟩ := kv0
    rw [mapInsert]
    split
    · rename_i hk
      subst hk
      simp
    · simp only [List.map_cons, List.mem_cons, ih]
      constructor
      · rintro (h | h | h)
        · exact Or.inr (Or.inl h)
        · exact Or.inl h
        · exact Or.inr (Or.inr h)
      · rintro (h | h | h)
        · exact Or.inr (Or.inl h)
        · exact Or.inl h
        · exact Or.inr (Or.inr h)

theorem mapInsert_nodup {k v : List Char} :
    ∀ {m : Exclude}, (m.map Prod.fst).Nodup →
      ((mapInsert k v m).map Prod.fst).Nodup := by
  intro m
  induction m with
  | nil => intro _; simp [mapInsert]
  | cons kv0 rest ih =>
    intro h
    obtain ⟨k', v'⟩ := kv0
    simp only [List.map_cons, List.nodup_cons] at h
    rw [mapInsert]
    split
    · rename_i hk
      subst hk
      simp only [List.map_cons, List.nodup_cons]
      exact h
    · rename_i hk
      simp only [List.map_cons, List.nodup_cons]
      refine ⟨fun hm => ?_, ih h.2⟩
      rcases mapInsert_keys_mem.mp hm with rfl | hm2
      · exact hk rfl
      · exact h.1 hm2

theorem mapGet_insert_same {k v : List Char} :
    ∀ {m : Exclude}, mapGet k (mapInsert k v m) = some v := by
  intro m
  induction m with
  | nil => simp [mapInsert, mapGet]
  | cons kv0 rest ih =>
    obtain ⟨k', v'⟩ := kv0
    rw [mapInsert]
    split
    · rw [mapGet, if_pos rfl]
    · rename_i hk
      rw [mapGet, if_neg hk]
      exact ih

theorem mapGet_insert_other {k' k v : List Char} (hne : k ≠ k') :
    ∀ {m : Exclude}, mapGet k' (mapInsert k v m) = mapGet k' m := by
  intro m
  induction m with
  | nil => simp [mapInsert, mapGet, hne]
  | cons kv0 rest ih =>
    obtain ⟨k0, v0⟩ := kv0
    rw [mapInsert]
    split
    · rename_i hk
      subst hk
      rw [mapGet, mapGet, if_neg hne, if_neg hne]
    · rw [mapGet, mapGet]
      by_cases h0 : k0 = k'
      · rw [if_pos h0, if_pos h0]
      · rw [if_neg h0, if_neg h0]
        exact ih

theorem loadMap_concat (cwd : List Char) (es : List (List Char × List Char))
    (e : List Char × List Char) :
    loadMap cwd (es ++ [e]) = mapInsert (GoFilepath.Abs cwd e.1) e.2 (loadMap cwd es) := by
  rw [loadMap, loadMap, List.foldl_append]
  rfl

theorem mapGet_loadMap (cwd : List Char) :
    ∀ (entries : List (List Char × List Char)) (k : List Char),
      mapGet k (loadMap cwd entries) =
        ((entries.reverse.find? fun kv => decide (GoFilepath.Abs cwd kv.1 = k)).map
          Prod.snd) := by
  intro entries
  induction entries using List.reverseRecOn with
  | nil => intro k; rfl
  | append_singleton es e ih =>
    intro k
    rw [loadMap_concat, List.reverse_append]
    simp only [List.reverse_singleton, List.singleton_append, List.find?_cons]
    by_cases hk : GoFilepath.Abs cwd e.1 = k
    · rw [hk, mapGet_insert_same]
      simp
    · rw [mapGet_insert_other hk]
      rw [ih k]
      have : (decide (GoFilepath.Abs cwd e.1 = k)) = false := by simpa using hk
      rw [this]

theorem loadMap_keys_nodup (cwd : List Char) :
    ∀ (entries : List (List Char × List Char)),
      ((loadMap cwd entries).map Prod.fst).Nodup := by
  intro entries
  induction entries using List.reverseRecOn with
  | nil => simp [loadMap]
  | append_singleton es e ih =>
    rw [loadMap_concat]
    exact mapInsert_nodup ih

theorem IsAbs_Clean {p : List Char} (h : GoFilepath.IsAbs p = true) :
    GoFilepath.IsAbs (GoFilepath.Clean p) = true := by
  have hne : p ≠ [] := by
    intro hp
    rw [hp] at h
    simp [GoFilepath.IsAbs] at h
  rw [GoFilepath.Clean, if_neg hne]
  simp only [h, if_true]
  rfl

theorem IsAbs_Join {a : List Char} (b : List Char) (h : GoFilepath.IsAbs a = true) :
    GoFilepath.IsAbs (GoFilepath.Join a b) = true := by
  cases a with
  | nil => simp [GoFilepath.IsAbs] at h
  | cons c a' =>
    have hc : c = '/' := by simpa [GoFilepath.IsAbs] using h
    rw [GoFilepath.Join, if_neg (by simp), if_neg (by simp)]
    apply IsAbs_Clean
    subst hc
    simp [GoFilepath.IsAbs]

theorem IsAbs_Abs {cwd : List Char} (p : List Char) (h : GoFilepath.IsAbs cwd = true) :
    GoFilepath.IsAbs (GoFilepath.Abs cwd p) = true := by
  rw [GoFilepath.Abs]
  split
  · rename_i hp
    exact IsAbs_Clean hp
  · exact IsAbs_Join p h

theorem loadMap_keys_abs {cwd : List Char} (h : GoFilepath.IsAbs cwd = true) :
    ∀ (entries : List (List Char × List Char)) (kv : List Char × List Char),
      kv ∈ loadMap cwd entries → GoFilepath.IsAbs kv.1 = true := by
  intro entries
  induction entries using List.reverseRecOn with
  | nil => intro kv hm; simp [loadMap] at hm
  | append_singleton es e ih =>
    intro kv hm
    rw [loadMap_concat] at hm
    rcases mapInsert_mem hm with rfl | hm2
    · exact IsAbs_Abs e.1 h
    · exact ih kv hm2

/-!
Class-free and escape-free chunks and patterns never make the matcher
report a bad pattern, so the load probe accepts them. -/

theorem matchChunk_no_special :
    ∀ (chunk : List Char), '[' ∉ chunk → '\\' ∉ chunk →
      ∀ (s : List Char) (f : Bool), GoFilepath.matchChunk chunk s f ≠ .error () := by
  intro chunk
  induction chunk with
  | nil =>
    intro _ _ s f
    rw [GoFilepath.matchChunk_nil]
    split <;> simp
  | cons c ch ih =>
    intro h1 h2 s f
    have hc1 : c ≠ '[' := fun hc => h1 (hc ▸ List.mem_cons_self c ch)
    have hc2 : c ≠ '\\' := fun hc => h2 (hc ▸ List.mem_cons_self c ch)
    have hh1 : '[' ∉ ch := fun hm => h1 (List.mem_cons_of_mem _ hm)
    have hh2 : '\\' ∉ ch := fun hm => h2 (List.mem_cons_of_mem _ hm)
    by_cases hq : c = '?'
    · subst hq
      rw [GoFilepath.matchChunk_cons_q]
      split
      · exact ih hh1 hh2 _ _
      · exact ih hh1 hh2 _ _
    · rw [GoFilepath.matchChunk_cons_lit _ _ _ hc1 hq hc2]
      split
      · exact ih hh1 hh2 _ _
      · exact ih hh1 hh2 _ _

theorem chunkOK_of_no_special {chunk : List Char} (h1 : '[' ∉ chunk)
    (h2 : '\\' ∉ chunk) : chunkOK chunk = true := by
  unfold chunkOK
  cases hm : GoFilepath.matchChunk chunk [] true with
  | error u =>
    cases u
    exact absurd hm (matchChunk_no_special chunk h1 h2 [] true)
  | ok v => rfl

theorem patternOKF_of_no_special :
    ∀ (fuel : Nat) (p : List Char), p.length < fuel → '[' ∉ p → '\\' ∉ p →
      patternOKF fuel p = true := by
  intro fuel
  induction fuel with
  | zero => intro p h; omega
  | succ f ih =>
    intro p hlen h1 h2
    rw [patternOKF]
    split
    · rfl
    · rename_i hp
      split
      · rename_i star chunk rest heq
        have hchunk :
            (GoFilepath.scanChunkAux false (GoFilepath.dropLeadStars p).2).1 = chunk :=
          congrArg (fun x => x.2.1) heq
        have hrest :
            (GoFilepath.scanChunkAux false (GoFilepath.dropLeadStars p).2).2 = rest :=
          congrArg (fun x => x.2.2) heq
        have hd1 : '[' ∉ (GoFilepath.dropLeadStars p).2 := dropLeadStars_not_mem h1
        have hd2 : '\\' ∉ (GoFilepath.dropLeadStars p).2 := dropLeadStars_not_mem h2
        have happ := GoFilepath.scanChunkAux_append false (GoFilepath.dropLeadStars p).2
        rw [hchunk, hrest] at happ
        have hmc1 : '[' ∉ chunk := fun hm => hd1 (by
          rw [← happ]
          exact List.mem_append_left _ hm)
        have hmc2 : '\\' ∉ chunk := fun hm => hd2 (by
          rw [← happ]
          exact List.mem_append_left _ hm)
        have hmr1 : '[' ∉ rest := fun hm => hd1 (by
          rw [← happ]
          exact List.mem_append_right _ hm)
        have hmr2 : '\\' ∉ rest := fun hm => hd2 (by
          rw [← happ]
          exact List.mem_append_right _ hm)
        have hrlen := GoFilepath.scanChunk_rest_length hp
        rw [heq] at hrlen
        dsimp only at hrlen
        rw [chunkOK_of_no_special hmc1 hmc2, ih rest (by omega) hmr1 hmr2]
        simp

theorem patternOK_of_no_special {p : List Char} (h1 : '[' ∉ p) (h2 : '\\' ∉ p) :
    patternOK p = true :=
  patternOKF_of_no_special _ p (by omega) h1 h2

theorem globOk_of_patternOK {p : List Char} (h : patternOK p = true) :
    globOk p = true := by
  unfold globOk
  cases hm : GoFilepath.Match p [] with
  | error u =>
    cases u
    exact absurd hm (Match_no_error h [])
  | ok b => rfl

theorem UnmarshalJSON_singleton {cwd p r : List Char} {st : Option Exclude}
    (h : globOk p = true) :
    UnmarshalJSON cwd (.ok [(p, r)]) st =
      (some [(GoFilepath.Abs cwd p, r)], none) := by
  rw [UnmarshalJSON]
  rw [unmarshalEntries, if_pos h]
  rfl

/-!
Claim theorems. Each claim of the specification is settled below; the
counterexample theorems exhibit a concrete loaded configuration on which
the claim as stated fails, and the amended theorems prove the nearby
statement that does hold. -/

/-- Claim C1, counterexample: the pattern a*[ passes the load probe
(Glob checks it against the empty string only, which never reaches its
unterminated class), so the singleton configuration loads with canonical
key /w/a*[ and no error; querying the path /w/ab, the stored pattern
does not glob-match it (Match reports a bad pattern, not a match), so
the claim requires Excluded to return false, but Excluded hits the
panic branch instead, returning neither false nor true. -/
theorem claim_C1_cex :
    UnmarshalJSON ['/', 'w'] (.ok [(['a', '*', '['], ['r'])]) none =
      (some [(['/', 'w', '/', 'a', '*', '['], ['r'])], none) ∧
    GoFilepath.Match ['/', 'w', '/', 'a', '*', '['] ['/', 'w', '/', 'a', 'b'] =
      .error () ∧
    Excluded [(['/', 'w', '/', 'a', '*', '['], ['r'])] ['/', 'w', '/', 'a', 'b'] =
      .error () ∧
    Excluded [(['/', 'w', '/', 'a', '*', '['], ['r'])] ['/', 'w', '/', 'a', 'b'] ≠
      .ok false := by
  refine ⟨rfl, rfl, rfl, ?_⟩
  intro h
  have he : Excluded [(['/', 'w', '/', 'a', '*', '['], ['r'])]
      ['/', 'w', '/', 'a', 'b'] = .error () := rfl
  rw [he] at h
  cases h

/-- Claim C1, amended: provided evaluating each stored pattern against
the path reports no matcher error, Excluded returns true exactly when
some stored pattern glob-matches the path and false exactly when none
does; the empty mapping always answers false. -/
theorem claim_C1 {e : Exclude} {path : List Char}
    (h : ∀ kv ∈ e, GoFilepath.Match kv.1 path ≠ .error ()) :
    (Excluded e path = .ok true ↔ ∃ kv ∈ e, GoFilepath.Match kv.1 path = .ok true) ∧
    (Excluded e path = .ok false ↔ ∀ kv ∈ e, GoFilepath.Match kv.1 path ≠ .ok true) ∧
    Excluded [] path = .ok false := by
  refine ⟨⟨Excluded_ok_true, ?_⟩, ⟨?_, ?_⟩, rfl⟩
  · rintro ⟨kv, hmem, hkv⟩
    rw [Excluded_eq_any h]
    have : (e.any fun kv => isMatch kv.1 path) = true :=
      List.any_eq_true.mpr ⟨kv, hmem, by simp [isMatch, hkv]⟩
    rw [this]
  · intro hfalse kv hmem hkv
    have := Excluded_ok_false hfalse kv hmem
    rw [hkv] at this
    cases this
  · intro hnone
    rw [Excluded_eq_any h]
    have : (e.any fun kv => isMatch kv.1 path) = false := by
      rw [List.any_eq_false]
      intro kv hmem
      cases hm : GoFilepath.Match kv.1 path with
      | error u =>
        cases u
        exact absurd hm (h kv hmem)
      | ok b =>
        cases b with
        | true => exact absurd hm (hnone kv hmem)
        | false => simp [isMatch, hm]
    rw [this]

/-- Claim C1, witness: a singleton configuration whose pattern matches
the queried path without any matcher error. -/
theorem claim_C1_witness :
    (∀ kv ∈ ([(['/', 'a'], ['r'])] : Exclude),
        GoFilepath.Match kv.1 ['/', 'a'] ≠ .error ()) ∧
    (Excluded [(['/', 'a'], ['r'])] ['/', 'a'] = .ok true ↔
      ∃ kv ∈ ([(['/', 'a'], ['r'])] : Exclude),
        GoFilepath.Match kv.1 ['/', 'a'] = .ok true) := by
  have hyp : ∀ kv ∈ ([(['/', 'a'], ['r'])] : Exclude),
      GoFilepath.Match kv.1 ['/', 'a'] ≠ .error () := by
    intro kv hkv
    rw [List.mem_singleton] at hkv
    subst hkv
    intro h
    have : GoFilepath.Match ['/', 'a'] ['/', 'a'] = .ok true := rfl
    rw [this] at h
    cases h
  exact ⟨hyp, (claim_C1 hyp).1⟩

/-- Claim C2, counterexample: decoding yields the entry a before the
invalid entry with pattern one open bracket; the load returns the
invalid-pattern error, yet the receiver now holds the mapping with the
canonical key /w/a, an entry from the failed load, so the failed load
is not atomic. -/
theorem claim_C2_cex :
    UnmarshalJSON ['/', 'w'] (.ok [(['a'], ['r', '1']), (['['], ['r', '2'])]) none =
      (some [(['/', 'w', '/', 'a'], ['r', '1'])], some (.invalidPattern ['['])) ∧
    ([(['/', 'w', '/', 'a'], ['r', '1'])] : Exclude) ≠ [] := by
  exact ⟨rfl, by simp⟩

/-- Claim C2, amended: the load stops at the first failing entry and
returns its error (an invalid pattern leaves the receiver holding
exactly the entries processed before the failure, an empty map when the
first entry fails), and only a failure of the JSON decode itself leaves
the receiver untouched. -/
theorem claim_C2 (cwd : List Char) (st : Option Exclude)
    (good : List (List Char × List Char)) (bad : List Char × List Char)
    (rest : List (List Char × List Char))
    (hgood : ∀ kv ∈ good, globOk kv.1 = true) (hbad : globOk bad.1 = false) :
    (∀ st', UnmarshalJSON cwd .err st' = (st', some .malformedConfig)) ∧
    UnmarshalJSON cwd (.ok (good ++ bad :: rest)) st =
      (some (loadMap cwd good), some (.invalidPattern bad.1)) := by
  refine ⟨fun _ => rfl, ?_⟩
  rw [UnmarshalJSON]
  rw [unmarshalEntries_first_bad good bad rest [] hgood hbad]
  rfl

/-- Claim C2, witness: one valid entry followed by an invalid one. -/
theorem claim_C2_witness :
    (∀ kv ∈ ([(['a'], ['r', '1'])] : List (List Char × List Char)),
        globOk kv.1 = true) ∧
    globOk ['['] = false ∧
    UnmarshalJSON ['/', 'w'] (.ok ([(['a'], ['r', '1'])] ++ (['['], ['r', '2']) :: []))
        none =
      (some (loadMap ['/', 'w'] [(['a'], ['r', '1'])]), some (.invalidPattern ['['])) := by
  have hgood : ∀ kv ∈ ([(['a'], ['r', '1'])] : List (List Char × List Char)),
      globOk kv.1 = true := by
    intro kv hkv
    rw [List.mem_singleton] at hkv
    subst hkv
    rfl
  exact ⟨hgood, rfl,
    (claim_C2 ['/', 'w'] none [(['a'], ['r', '1'])] (['['], ['r', '2']) [] hgood rfl).2⟩

/-- Claim C3, counterexample: the absolute pattern /a//b is valid and
loads successfully, but the stored canonical key is the cleaned form
/a/b, not the pattern as-is. -/
theorem claim_C3_cex :
    GoFilepath.IsAbs ['/', 'a', '/', '/', 'b'] = true ∧
    UnmarshalJSON ['/', 'w'] (.ok [(['/', 'a', '/', '/', 'b'], ['r'])]) none =
      (some [(['/', 'a', '/', 'b'], ['r'])], none) ∧
    (['/', 'a', '/', 'b'] : List Char) ≠ ['/', 'a', '/', '/', 'b'] := by
  exact ⟨rfl, rfl, by simp⟩

/-- Claim C3, amended: the canonical key of an accepted single-entry
load is Abs of the raw pattern against the working directory, which is
Clean of the pattern when it is absolute (so not as-is in general) and
Join with the working directory when it is relative; the testdata
example of the claim behaves as stated: the relative pattern
testdata/testdata.go with working directory /repo is stored as
/repo/testdata/testdata.go, which excludes that very path and not
/other/testdata/testdata.go. -/
theorem claim_C3 (cwd p r : List Char) (hok : globOk p = true) :
    UnmarshalJSON cwd (.ok [(p, r)]) none =
      (some [(GoFilepath.Abs cwd p, r)], none) ∧
    (GoFilepath.IsAbs p = true → GoFilepath.Abs cwd p = GoFilepath.Clean p) ∧
    (GoFilepath.IsAbs p = false → GoFilepath.Abs cwd p = GoFilepath.Join cwd p) ∧
    GoFilepath.Abs ['/', 'r', 'e', 'p', 'o']
        ['t', 'e', 's', 't', 'd', 'a', 't', 'a', '/', 't', 'e', 's', 't', 'd', 'a', 't', 'a', '.', 'g', 'o'] =
      ['/', 'r', 'e', 'p', 'o', '/', 't', 'e', 's', 't', 'd', 'a', 't', 'a', '/', 't', 'e', 's', 't', 'd', 'a', 't', 'a', '.', 'g', 'o'] ∧
    Excluded [(['/', 'r', 'e', 'p', 'o', '/', 't', 'e', 's', 't', 'd', 'a', 't', 'a', '/', 't', 'e', 's', 't', 'd', 'a', 't', 'a', '.', 'g', 'o'], r)]
        ['/', 'r', 'e', 'p', 'o', '/', 't', 'e', 's', 't', 'd', 'a', 't', 'a', '/', 't', 'e', 's', 't', 'd', 'a', 't', 'a', '.', 'g', 'o'] =
      .ok true ∧
    Excluded [(['/', 'r', 'e', 'p', 'o', '/', 't', 'e', 's', 't', 'd', 'a', 't', 'a', '/', 't', 'e', 's', 't', 'd', 'a', 't', 'a', '.', 'g', 'o'], r)]
        ['/', 'o', 't', 'h', 'e', 'r', '/', 't', 'e', 's', 't', 'd', 'a', 't', 'a', '/', 't', 'e', 's', 't', 'd', 'a', 't', 'a', '.', 'g', 'o'] =
      .ok false := by
  refine ⟨UnmarshalJSON_singleton hok, ?_, ?_, rfl, rfl, rfl⟩
  · intro ha
    rw [GoFilepath.Abs, if_pos ha]
  · intro ha
    rw [GoFilepath.Abs, if_neg (by rw [ha]; exact Bool.false_ne_true)]

/-- Claim C3, witness: a concrete relative single-entry load. -/
theorem claim_C3_witness :
    globOk ['a'] = true ∧
    UnmarshalJSON ['/', 'w'] (.ok [(['a'], ['r'])]) none =
      (some [(GoFilepath.Abs ['/', 'w'] ['a'], ['r'])], none) :=
  ⟨rfl, (claim_C3 ['/', 'w'] ['a'] ['r'] rfl).1⟩

/-- Claim C4: a configuration containing an entry that fails the glob
probe makes the load return an invalid-pattern error carrying a failing
pattern of the configuration (the returned error is the only result
besides the mutated receiver; no exclusion set value is returned). The
probe is the glob-syntax validation of the load (filepath.Glob), per
the error taxonomy of the spec. -/
theorem claim_C4 (cwd : List Char) (st : Option Exclude)
    (entries : List (List Char × List Char))
    (h : ∃ kv ∈ entries, globOk kv.1 = false) :
    ∃ p, (UnmarshalJSON cwd (.ok entries) st).2 = some (.invalidPattern p) ∧
      globOk p = false ∧ p ∈ entries.map Prod.fst := by
  obtain ⟨p, h1, h2, h3⟩ := unmarshalEntries_exists_bad entries [] h
  exact ⟨p, h1, h2, h3⟩

/-- Claim C4, witness: the configuration of the claim, one entry with
the malformed class pattern. -/
theorem claim_C4_witness :
    (∃ kv ∈ ([(['[', 'i', 'n', 'v', 'a', 'l', 'i', 'd'], ['b', 'a', 'd'])] :
        List (List Char × List Char)), globOk kv.1 = false) ∧
    (∃ p, (UnmarshalJSON ['/', 'w']
        (.ok [(['[', 'i', 'n', 'v', 'a', 'l', 'i', 'd'], ['b', 'a', 'd'])]) none).2 =
          some (.invalidPattern p) ∧
      globOk p = false ∧
      p ∈ ([(['[', 'i', 'n', 'v', 'a', 'l', 'i', 'd'], ['b', 'a', 'd'])] :
        List (List Char × List Char)).map Prod.fst) := by
  have hyp : ∃ kv ∈ ([(['[', 'i', 'n', 'v', 'a', 'l', 'i', 'd'], ['b', 'a', 'd'])] :
      List (List Char × List Char)), globOk kv.1 = false :=
    ⟨(['[', 'i', 'n', 'v', 'a', 'l', 'i', 'd'], ['b', 'a', 'd']),
      List.mem_singleton.mpr rfl, rfl⟩
  exact ⟨hyp, claim_C4 ['/', 'w'] none _ hyp⟩

/-- Claim C5: when the JSON decode of the input bytes fails (the bytes
are not valid JSON or not a flat string-to-string object, the err case
of the decode outcome), the load returns that error as a malformed
configuration and performs no per-pattern work: the receiver state is
returned exactly as it was. -/
theorem claim_C5 (cwd : List Char) (st : Option Exclude) :
    UnmarshalJSON cwd .err st = (st, some .malformedConfig) := rfl

/-- Claim C6, counterexample: the configuration with the single pattern
a*[ loads successfully (the probe matches the pattern against the empty
string only and the failing chunk is never reached), yet evaluating
Excluded on the path /w/ac reaches the match-evaluation-failure branch:
the panic is reachable after a successful load. -/
theorem claim_C6_cex :
    UnmarshalJSON ['/', 'w'] (.ok [(['a', '*', '['], ['r'])]) none =
      (some [(['/', 'w', '/', 'a', '*', '['], ['r'])], none) ∧
    Excluded [(['/', 'w', '/', 'a', '*', '['], ['r'])] ['/', 'w', '/', 'a', 'c'] =
      .error () :=
  ⟨rfl, rfl⟩

/-- Claim C6, amended: the panic branch of Excluded is unreachable for
every query when every stored pattern is strongly well-formed, meaning
every chunk of it parses (patternOK); this is a strictly stronger
condition than the load-time probe, which only walks the chunks that
matching against the empty string reaches. -/
theorem claim_C6 {e : Exclude} (h : ∀ kv ∈ e, patternOK kv.1 = true) :
    ∀ path, Excluded e path ≠ .error () := by
  induction e with
  | nil =>
    intro path hfalse
    cases hfalse
  | cons kv rest ih =>
    intro path
    obtain ⟨pat, reason⟩ := kv
    rw [Excluded]
    cases hm : GoFilepath.Match pat path with
    | error u =>
      cases u
      exact absurd hm
        (Match_no_error (h (pat, reason) (List.mem_cons_self _ _)) path)
    | ok b =>
      cases b with
      | true => simp
      | false => exact ih (fun kv2 hm2 => h kv2 (List.mem_cons_of_mem _ hm2)) path

/-- Claim C6, witness: a strongly well-formed singleton set never hits
the panic branch. -/
theorem claim_C6_witness :
    (∀ kv ∈ ([(['/', 'w', '/', 'a'], ['r'])] : Exclude), patternOK kv.1 = true) ∧
    Excluded [(['/', 'w', '/', 'a'], ['r'])] ['x'] ≠ .error () := by
  have hyp : ∀ kv ∈ ([(['/', 'w', '/', 'a'], ['r'])] : Exclude),
      patternOK kv.1 = true := by
    intro kv hkv
    rw [List.mem_singleton] at hkv
    subst hkv
    rfl
  exact ⟨hyp, claim_C6 hyp ['x']⟩

/-- Claim C7, counterexample: for the relative raw pattern a (which has
no wildcards, so it is its own canonicalization) and reason r, the load
stores the absolutized key /w/a, and querying Excluded on the
canonicalization of the raw pattern returns false, not true as the
claim states: matching is against the stored absolute pattern, not the
raw one. -/
theorem claim_C7_cex :
    UnmarshalJSON ['/', 'w'] (.ok [(['a'], ['r'])]) none =
      (some [(['/', 'w', '/', 'a'], ['r'])], none) ∧
    canon ['a'] = ['a'] ∧
    Excluded [(['/', 'w', '/', 'a'], ['r'])] ['a'] = .ok false :=
  ⟨rfl, rfl, rfl⟩

/-- Claim C7, amended: for patterns and working directories free of
character classes and escapes (where the canonicalize operation of the
spec is meaningful), loading the single entry and querying Excluded at
the canonicalization of the STORED canonical pattern (Abs of the raw
pattern, not the raw pattern itself) returns true, and the reason
stored under that canonical key is r. -/
theorem claim_C7 (cwd p r : List Char)
    (h1 : '[' ∉ p) (h2 : '\\' ∉ p)
    (h3 : '[' ∉ GoFilepath.Abs cwd p) (h4 : '\\' ∉ GoFilepath.Abs cwd p) :
    UnmarshalJSON cwd (.ok [(p, r)]) none =
      (some [(GoFilepath.Abs cwd p, r)], none) ∧
    Excluded [(GoFilepath.Abs cwd p, r)] (canon (GoFilepath.Abs cwd p)) = .ok true ∧
    mapGet (GoFilepath.Abs cwd p) [(GoFilepath.Abs cwd p, r)] = some r := by
  refine ⟨UnmarshalJSON_singleton
    (globOk_of_patternOK (patternOK_of_no_special h1 h2)), ?_, ?_⟩
  · rw [Excluded, Match_canon h3 h4]
  · rw [mapGet, if_pos rfl]

/-- Claim C7, witness: the relative pattern a with working directory
/w; the stored key is /w/a and its canonicalization is itself. -/
theorem claim_C7_witness :
    ('[' ∉ (['a'] : List Char)) ∧ ('\\' ∉ (['a'] : List Char)) ∧
    ('[' ∉ GoFilepath.Abs ['/', 'w'] ['a']) ∧
    ('\\' ∉ GoFilepath.Abs ['/', 'w'] ['a']) ∧
    Excluded [(GoFilepath.Abs ['/', 'w'] ['a'], ['r'])]
      (canon (GoFilepath.Abs ['/', 'w'] ['a'])) = .ok true := by
  refine ⟨by decide, by decide, by decide, by decide, ?_⟩
  exact (claim_C7 ['/', 'w'] ['a'] ['r'] (by decide) (by decide)
    (by decide) (by decide)).2.1

/-- Claim C8, counterexample: the raw pattern with a class containing a
separator followed by a dot-dot element passes the glob probe, but
canonicalization (Clean inside Abs) pops the element holding the
closing bracket, storing the key /w/[a whose class is unterminated: a
key of the live mapping after a successful load that does not compile
under the matcher. -/
theorem claim_C8_cex :
    globOk ['[', 'a', '/', 'b', ']', '/', '.', '.'] = true ∧
    UnmarshalJSON ['/', 'w']
        (.ok [(['[', 'a', '/', 'b', ']', '/', '.', '.'], ['r'])]) none =
      (some [(['/', 'w', '/', '[', 'a'], ['r'])], none) ∧
    globOk ['/', 'w', '/', '[', 'a'] = false :=
  ⟨rfl, rfl, rfl⟩

/-- Claim C8, amended: after a load whose entries all pass the probe,
the resulting mapping is the fold of the entries, every key is absolute
(given an absolute working directory), keys are unique, and the value
stored under a key is the reason of the last entry in iteration order
whose pattern canonicalizes to that key; the glob-validity of the keys
claimed by the spec does not hold (see the counterexample). -/
theorem claim_C8 (cwd : List Char) (entries : List (List Char × List Char))
    (habs : GoFilepath.IsAbs cwd = true)
    (hok : ∀ kv ∈ entries, globOk kv.1 = true) :
    UnmarshalJSON cwd (.ok entries) none = (some (loadMap cwd entries), none) ∧
    (∀ kv ∈ loadMap cwd entries, GoFilepath.IsAbs kv.1 = true) ∧
    ((loadMap cwd entries).map Prod.fst).Nodup ∧
    (∀ k, mapGet k (loadMap cwd entries) =
      ((entries.reverse.find? fun kv => decide (GoFilepath.Abs cwd kv.1 = k)).map
        Prod.snd)) := by
  refine ⟨?_, fun kv hm => loadMap_keys_abs habs entries kv hm,
    loadMap_keys_nodup cwd entries, mapGet_loadMap cwd entries⟩
  rw [UnmarshalJSON]
  rw [unmarshalEntries_ok entries [] hok]
  rfl

/-- Claim C8, witness: two raw patterns, a and ./a, that canonicalize
to the same key /w/a; exactly one entry remains and its reason is that
of the later entry. -/
theorem claim_C8_witness :
    GoFilepath.IsAbs ['/', 'w'] = true ∧
    (∀ kv ∈ ([(['a'], ['r', '1']), (['.', '/', 'a'], ['r', '2'])] :
        List (List Char × List Char)), globOk kv.1 = true) ∧
    UnmarshalJSON ['/', 'w']
        (.ok [(['a'], ['r', '1']), (['.', '/', 'a'], ['r', '2'])]) none =
      (some (loadMap ['/', 'w'] [(['a'], ['r', '1']), (['.', '/', 'a'], ['r', '2'])]),
        none) ∧
    loadMap ['/', 'w'] [(['a'], ['r', '1']), (['.', '/', 'a'], ['r', '2'])] =
      [(['/', 'w', '/', 'a'], ['r', '2'])] := by
  have hok : ∀ kv ∈ ([(['a'], ['r', '1']), (['.', '/', 'a'], ['r', '2'])] :
      List (List Char × List Char)), globOk kv.1 = true := by
    intro kv hkv
    rcases List.mem_cons.mp hkv with rfl | hkv2
    · rfl
    · rw [List.mem_singleton] at hkv2
      subst hkv2
      rfl
  exact ⟨rfl, hok,
    (claim_C8 ['/', 'w'] [(['a'], ['r', '1']), (['.', '/', 'a'], ['r', '2'])] rfl hok).1,
    rfl⟩

/-- Claim C9, counterexample: the patterns /w/ab and /w/a*[ form a
loadable set under either iteration order (shown by the two loads), the
two orders are permutations of each other, yet on the path /w/ab one
order answers true while the other hits the panic branch and produces
no boolean at all: the result is not independent of iteration order. -/
theorem claim_C9_cex :
    UnmarshalJSON ['/', 'w']
        (.ok [(['a', 'b'], ['r', '2']), (['a', '*', '['], ['r'])]) none =
      (some [(['/', 'w', '/', 'a', 'b'], ['r', '2']),
        (['/', 'w', '/', 'a', '*', '['], ['r'])], none) ∧
    UnmarshalJSON ['/', 'w']
        (.ok [(['a', '*', '['], ['r']), (['a', 'b'], ['r', '2'])]) none =
      (some [(['/', 'w', '/', 'a', '*', '['], ['r']),
        (['/', 'w', '/', 'a', 'b'], ['r', '2'])], none) ∧
    List.Perm
      [(['/', 'w', '/', 'a', 'b'], ['r', '2']), (['/', 'w', '/', 'a', '*', '['], ['r'])]
      [(['/', 'w', '/', 'a', '*', '['], ['r']), (['/', 'w', '/', 'a', 'b'], ['r', '2'])] ∧
    Excluded [(['/', 'w', '/', 'a', 'b'], ['r', '2']),
        (['/', 'w', '/', 'a', '*', '['], ['r'])] ['/', 'w', '/', 'a', 'b'] =
      .ok true ∧
    Excluded [(['/', 'w', '/', 'a', '*', '['], ['r']),
        (['/', 'w', '/', 'a', 'b'], ['r', '2'])] ['/', 'w', '/', 'a', 'b'] =
      .error () := by
  exact ⟨rfl, rfl, List.Perm.swap _ _ _, rfl, rfl⟩

/-- Claim C9, amended: Excluded is a pure function (calling it twice
trivially returns the same value), and whenever two iteration orders of
the same stored patterns both complete without hitting the panic
branch, the booleans agree. -/
theorem claim_C9 {e e' : Exclude} {path : List Char} {b b' : Bool}
    (hperm : e.Perm e') (h : Excluded e path = .ok b)
    (h' : Excluded e' path = .ok b') : b = b' :=
  Excluded_perm_agree hperm h h'

/-- Claim C9, witness: the two orders of the loadable pair of patterns
queried at a path on which both complete. -/
theorem claim_C9_witness :
    List.Perm
      [(['/', 'w', '/', 'a', 'b'], ['r', '2']), (['/', 'w', '/', 'a', '*', '['], ['r'])]
      [(['/', 'w', '/', 'a', '*', '['], ['r']), (['/', 'w', '/', 'a', 'b'], ['r', '2'])] ∧
    Excluded [(['/', 'w', '/', 'a', 'b'], ['r', '2']),
        (['/', 'w', '/', 'a', '*', '['], ['r'])] ['/', 'w', '/', 'x'] = .ok false ∧
    Excluded [(['/', 'w', '/', 'a', '*', '['], ['r']),
        (['/', 'w', '/', 'a', 'b'], ['r', '2'])] ['/', 'w', '/', 'x'] = .ok false ∧
    (false : Bool) = false := by
  exact ⟨List.Perm.swap _ _ _, rfl, rfl,
    @claim_C9
      [(['/', 'w', '/', 'a', 'b'], ['r', '2']), (['/', 'w', '/', 'a', '*', '['], ['r'])]
      [(['/', 'w', '/', 'a', '*', '['], ['r']), (['/', 'w', '/', 'a', 'b'], ['r', '2'])]
      ['/', 'w', '/', 'x'] false false (List.Perm.swap _ _ _) rfl rfl⟩

/-- Claim C10: the zero-value Exclude holds a nil map; Excluded on it
does not fail and answers false for every path, exactly like the empty
allocated mapping. -/
theorem claim_C10 :
    (∀ path, ExcludedOpt none path = .ok false) ∧
    (∀ path, ExcludedOpt none path = ExcludedOpt (some []) path) :=
  ⟨fun _ => rfl, fun _ => rfl⟩
